import Mathlib

/-!
Verification of the dog-record store in `task-fastapi/main.py`.

The store `DB_DOGS` is a Python dict from integer keys to `Dog` models; a
Python dict preserves insertion order, overwrites in place, and appends new
keys at the end, so it is embedded as an association list `List (Int × Dog)`
with exactly those operations.  The HTTP handlers become pure functions on
that list; a handler that fails — by raising an `HTTPException`, or by letting
a `ValueError` from pydantic's `__setattr__` escape — returns
`Except StoreError`.
-/

set_option autoImplicit false

namespace DogStore

/-- The `DogType` enumeration: terrier, bulldog, dalmatian. -/
inductive DogType where
  | terrier
  | bulldog
  | dalmatian
deriving DecidableEq, Repr

/-- The `Dog` pydantic model: `pk` optional int, `name` str, `kind` DogType,
`age` optional int, `owner` optional str, `vaccinated` bool. -/
structure Dog where
  pk : Option Int
  name : String
  kind : DogType
  age : Option Int
  owner : Option String
  vaccinated : Bool
deriving DecidableEq, Repr

/-- The store `DB_DOGS`: insertion-ordered association list of key/record pairs. -/
abbrev RecordStore := List (Int × Dog)

/-- How a handler fails: `notFound` and `invalidField` are the two
`HTTPException`s it raises; `fieldError` is the `ValueError` pydantic's
`__setattr__` raises on a non-field attribute name, which no handler catches,
so it escapes as a 500 — since the update loop mutates the stored object in
place, `fieldError` carries the store as already partially mutated when the
exception fired. -/
inductive StoreError where
  | notFound
  | invalidField (keys : List String)
  | fieldError (key : String) (db : RecordStore)
deriving DecidableEq, Repr

/-- HTTP status code the failure produces (500 for the uncaught exception). -/
def StoreError.status : StoreError → Nat
  | .notFound => 404
  | .invalidField _ => 400
  | .fieldError _ _ => 500

/-- `DB_DOGS.get(pk)` / `pk in DB_DOGS`: first entry with the given key. -/
def dictGet : RecordStore → Int → Option Dog
  | [], _ => none
  | (k', d) :: rest, k => if k' = k then some d else dictGet rest k

/-- `DB_DOGS[pk] = dog`: overwrite in place, or append a new key at the end,
matching Python dict insertion-order semantics. -/
def dictSet : RecordStore → Int → Dog → RecordStore
  | [], k, d => [(k, d)]
  | (k', d') :: rest, k, d =>
      if k' = k then (k, d) :: rest else (k', d') :: dictSet rest k d

/-- `DB_DOGS.pop(pk)`: drop the first entry with the given key. -/
def dictErase : RecordStore → Int → RecordStore
  | [], _ => []
  | (k', d') :: rest, k => if k' = k then rest else (k', d') :: dictErase rest k

/-- `list(DB_DOGS.values())` in insertion order. -/
def storeValues (db : RecordStore) : List Dog := db.map Prod.snd

/-- `max(dog.pk for dog in DB_DOGS.values())`: `some` of the maximum when every
stored record's `pk` is present; `none` models the Python `TypeError` that the
`max`/`+ 1` computation raises when a stored `pk` is `None`. -/
def optMax : Option Int → Option Int → Option Int
  | some a, some b => some (max a b)
  | _, _ => none

def maxPks : RecordStore → Option Int
  | [] => none
  | (_, d) :: rest => rest.foldl (fun acc p => optMax acc p.2.pk) d.pk

/-- `GET /` (`root`): the full list of records in insertion order. -/
def root (db : RecordStore) : List Dog := storeValues db

/-- `GET /dog` (`get_dogs`): records whose kind equals the query kind. -/
def get_dogs (db : RecordStore) (kind : DogType) : List Dog :=
  (storeValues db).filter (fun dog => dog.kind == kind)

/-- `POST /dog` (`create_dog`).  `if not pk` is Python falsiness: the fresh-id
branch is taken when `pk` is `None` or `0`.  The fresh id is
`max(dog.pk for dog in DB_DOGS.values()) + 1`, or `1` on an empty store.
Returns `none` when that `max` raises (a stored `pk` is `None`). -/
def create_dog (db : RecordStore) (dog : Dog) : Option (RecordStore × Dog) :=
  let pkRes : Option Int :=
    if dog.pk = none ∨ dog.pk = some 0 then
      if db.isEmpty then some 1 else (maxPks db).map (· + 1)
    else dog.pk
  match pkRes with
  | none => none
  | some pk =>
      let stored : Dog :=
        { pk := some pk, name := dog.name, kind := dog.kind, age := dog.age,
          owner := dog.owner, vaccinated := dog.vaccinated }
      some (dictSet db pk stored, stored)

/-- Python's `str.lower()`: lower-case each character (ASCII case mapping, as
in `Char.toLower`; the spec's names are ASCII). -/
def strLower (s : String) : String := String.mk (s.data.map Char.toLower)

/-- `GET /dog/search` (`search_dog_by_name`): case-insensitive exact name
match; 404 when the result list is empty. -/
def search_dog_by_name (db : RecordStore) (name : String) :
    Except StoreError (List Dog) :=
  let result := (storeValues db).filter (fun dog => strLower dog.name == strLower name)
  if result.isEmpty then .error .notFound else .ok result

/-- `GET /dog/{pk}` (`get_dog_by_pk`): the record at the key, else 404. -/
def get_dog_by_pk (db : RecordStore) (pk : Int) : Except StoreError Dog :=
  match dictGet db pk with
  | some dog => .ok dog
  | none => .error .notFound

/-- A JSON value appearing in a `PATCH /dog/{pk}` body.  The transport layer
(spec section 6) guarantees values reaching the store fit the record shape, so
each value is one of the field value types. -/
inductive PatchValue where
  | vInt (i : Int)
  | vStr (s : String)
  | vKind (k : DogType)
  | vBool (b : Bool)
deriving DecidableEq, Repr

/-- The `update_data` dict: ordered key/value entries, `none` for JSON null. -/
abbrev Patch := List (String × Option PatchValue)

/-- The six declared fields of the `Dog` model. -/
def dogFields : List String :=
  ["pk", "name", "kind", "age", "owner", "vaccinated"]

/-- Attribute names a pydantic `BaseModel` instance carries besides its
declared fields — methods and dunders present in both pydantic major versions
(`dict`, `json`, `copy`, `schema`, `construct`, `__init__`, `__fields__`).
`hasattr` is true for them although they are not fields, and `setattr`
refuses them.  The model samples the attribute names a patch key could
collide with; a key outside `dogFields ++ baseModelAttrs` is modeled as
having no attribute, which matches Python for ordinary unknown keys. -/
def baseModelAttrs : List String :=
  ["dict", "json", "copy", "schema", "construct", "__init__", "__fields__"]

/-- `hasattr(current_dog, key)` on the `Dog` model: true for the declared
fields and also for the `BaseModel` attributes that are not fields. -/
def dogHasAttr (key : String) : Bool :=
  dogFields.contains key || baseModelAttrs.contains key

/-- `setattr(current_dog, key, value)`: overwrite the named field.  Pydantic's
`__setattr__` raises `ValueError` when `key` is not a declared field, even
when `hasattr` was true (a method name); `none` models that exception. -/
def setDogField (d : Dog) (key : String) (v : PatchValue) : Option Dog :=
  match key, v with
  | "pk", .vInt i => some { d with pk := some i }
  | "name", .vStr s => some { d with name := s }
  | "kind", .vKind k => some { d with kind := k }
  | "age", .vInt i => some { d with age := some i }
  | "owner", .vStr s => some { d with owner := some s }
  | "vaccinated", .vBool b => some { d with vaccinated := b }
  | _, _ => if dogFields.contains key then some d else none

/-- One iteration of the update loop: `if hasattr(current_dog, key) and value
is not None: setattr(current_dog, key, value)`; `none` when `setattr`
raises. -/
def patchStep (d : Dog) (e : String × Option PatchValue) : Option Dog :=
  match e.2 with
  | some v => if dogHasAttr e.1 then setDogField d e.1 v else some d
  | none => some d

/-- The update loop `for key, value in update_data.items(): ...`.  The loop
mutates the record in place, so when `setattr` raises mid-loop the entries
already processed stay applied: the error carries the offending key and the
record as mutated so far. -/
def applyPatch (cur : Dog) : Patch → Except (String × Dog) Dog
  | [] => .ok cur
  | e :: rest =>
      match patchStep cur e with
      | some d => applyPatch d rest
      | none => .error (e.1, cur)

/-- `PATCH /dog/{pk}` (`update_dog`): 404 when the key is absent; 400 listing
the offending keys when any patch key is not an attribute; otherwise run the
update loop on the stored record.  When the loop raises (`setattr` on a
method-name key), the exception escapes the handler with the stored record
already partially mutated in place; the `fieldError` result carries that
mutated store. -/
def update_dog (db : RecordStore) (pk : Int) (patch : Patch) :
    Except StoreError (RecordStore × Dog) :=
  match dictGet db pk with
  | none => .error .notFound
  | some current =>
      let invalid := (patch.map Prod.fst).filter (fun key => !(dogHasAttr key))
      if invalid.isEmpty then
        match applyPatch current patch with
        | .ok updated => .ok (dictSet db pk updated, updated)
        | .error (key, dogSoFar) => .error (.fieldError key (dictSet db pk dogSoFar))
      else .error (.invalidField invalid)

/-- `DELETE /dog/{pk}` (`delete_dog`): 404 when absent; otherwise pop and
return the removed record. -/
def delete_dog (db : RecordStore) (pk : Int) :
    Except StoreError (RecordStore × Dog) :=
  match dictGet db pk with
  | none => .error .notFound
  | some dog => .ok (dictErase db pk, dog)

/-- One mutating request against the store. -/
inductive Op where
  | create (dog : Dog)
  | update (pk : Int) (patch : Patch)
  | delete (pk : Int)

/-- Run one request.  A request that raises an `HTTPException` (or aborts the
`max` computation) fires before any mutation and leaves the store as it was;
an update whose loop raises mid-way leaves the partially mutated store that
`fieldError` carries. -/
def runOp (db : RecordStore) : Op → RecordStore
  | .create dog =>
      match create_dog db dog with
      | some (db', _) => db'
      | none => db
  | .update pk patch =>
      match update_dog db pk patch with
      | .ok (db', _) => db'
      | .error (.fieldError _ db') => db'
      | .error .notFound => db
      | .error (.invalidField _) => db
  | .delete pk =>
      match delete_dog db pk with
      | .ok (db', _) => db'
      | .error _ => db

/-- Run a sequence of requests from a given store. -/
def runOps (db : RecordStore) (ops : List Op) : RecordStore :=
  ops.foldl runOp db

/-- The empty store the process starts with (`DB_DOGS = {}`). -/
def emptyStore : RecordStore := []

/-- Maximum of a nonempty list of integers (`none` on the empty list). -/
def listMax : List Int → Option Int
  | [] => none
  | x :: xs => some (xs.foldl max x)

/-- The id an id-omitted create receives: one more than the largest stored
key, or `1` on an empty store. -/
def nextPk (db : RecordStore) : Int :=
  match listMax (db.map Prod.fst) with
  | none => 1
  | some m => m + 1

/-- The store invariant: every record's `pk` field equals its key, and keys
are pairwise distinct. -/
def WF (db : RecordStore) : Prop :=
  (∀ p ∈ db, p.2.pk = some p.1) ∧ (db.map Prod.fst).Nodup

instance (db : RecordStore) : Decidable (WF db) := by
  unfold WF; infer_instance

/-- Whether a patch value fits the declared type of the named field (the
request shape the transport layer guarantees, spec section 6). -/
def valTypeOk : String → PatchValue → Bool
  | "pk", .vInt _ => true
  | "name", .vStr _ => true
  | "kind", .vKind _ => true
  | "age", .vInt _ => true
  | "owner", .vStr _ => true
  | "vaccinated", .vBool _ => true
  | _, _ => false

def entryOk : String × Option PatchValue → Bool
  | (_, none) => true
  | (k, some v) => valTypeOk k v

/-- Every non-null entry of the patch fits its field's type. -/
def patchWellTyped (patch : Patch) : Bool := patch.all entryOk

/-- First value stored under a key of the patch dict, if the key is present. -/
def lookupKey : Patch → String → Option (Option PatchValue)
  | [], _ => none
  | (k, w) :: rest, key => if k = key then some w else lookupKey rest key

/-- The value a patch assigns to a key, skipping null entries. -/
def lookupNonNull (patch : Patch) (key : String) : Option PatchValue :=
  match lookupKey patch key with
  | some (some v) => some v
  | _ => none

/-- The normalized copy `create_dog` stores: field-by-field copy with the key. -/
def normalizeDog (dog : Dog) (k : Int) : Dog :=
  { pk := some k, name := dog.name, kind := dog.kind, age := dog.age,
    owner := dog.owner, vaccinated := dog.vaccinated }

/-- Requests that never patch the `pk` field. -/
def opSafe : Op → Prop
  | .update _ patch => "pk" ∉ patch.map Prod.fst
  | _ => True

instance (op : Op) : Decidable (opSafe op) :=
  match op with
  | .create _ => isTrue trivial
  | .update _ patch => inferInstanceAs (Decidable ("pk" ∉ patch.map Prod.fst))
  | .delete _ => isTrue trivial

def dogA : Dog :=
  { pk := none, name := "A", kind := .terrier, age := none, owner := none,
    vaccinated := false }

def dogB : Dog :=
  { pk := none, name := "B", kind := .bulldog, age := none, owner := none,
    vaccinated := false }

def dogC : Dog :=
  { pk := none, name := "C", kind := .dalmatian, age := none, owner := none,
    vaccinated := false }

/-- `dogA` as stored under id 1 (`normalizeDog dogA 1`). -/
def dogA1 : Dog :=
  { pk := some 1, name := "A", kind := .terrier, age := none, owner := none,
    vaccinated := false }

/-- `dogB` as stored under id 2. -/
def dogB2 : Dog :=
  { pk := some 2, name := "B", kind := .bulldog, age := none, owner := none,
    vaccinated := false }

/-- A record named "Rex" stored under id 1. -/
def dogRex : Dog :=
  { pk := some 1, name := "Rex", kind := .terrier, age := none, owner := none,
    vaccinated := false }

def dogZ : Dog :=
  { pk := some 0, name := "Z", kind := .terrier, age := none, owner := none,
    vaccinated := false }

/-- `dogA1` after applying the `name` entry of the patch `{name: "X",
dict: "y"}` — the state the stored record is left in when the `dict` entry
then raises. -/
def dogA1X : Dog :=
  { pk := some 1, name := "X", kind := .terrier, age := none, owner := none,
    vaccinated := false }

/-- `dogA1` after `update 1 {age: 5}`. -/
def dogA1age5 : Dog :=
  { pk := some 1, name := "A", kind := .terrier, age := some 5, owner := none,
    vaccinated := false }

/-! ### Lemmas and claim theorems -/

theorem dictGet_dictSet_self (db : RecordStore) (k : Int) (d : Dog) :
    dictGet (dictSet db k d) k = some d := by
  induction db with
  | nil => simp [dictSet, dictGet]
  | cons p rest ih =>
      obtain ⟨k', d'⟩ := p
      by_cases h : k' = k <;> simp [dictSet, dictGet, h, ih]

theorem dictGet_mem {db : RecordStore} {k : Int} {d : Dog}
    (h : dictGet db k = some d) : (k, d) ∈ db := by
  induction db with
  | nil => simp [dictGet] at h
  | cons p rest ih =>
      obtain ⟨k', d'⟩ := p
      by_cases hk : k' = k
      · subst hk
        simp [dictGet] at h
        simp [h]
      · simp [dictGet, hk] at h
        exact List.mem_cons_of_mem _ (ih h)

theorem dictGet_eq_none {db : RecordStore} {k : Int} :
    dictGet db k = none ↔ k ∉ db.map Prod.fst := by
  induction db with
  | nil => simp [dictGet]
  | cons p rest ih =>
      obtain ⟨k', d'⟩ := p
      by_cases hk : k' = k
      · subst hk; simp [dictGet]
      · simp [dictGet, hk, ih, Ne.symm hk]

theorem mem_dictSet {db : RecordStore} {k : Int} {d p : _}
    (h : p ∈ dictSet db k d) : p = (k, d) ∨ p ∈ db := by
  induction db with
  | nil => simp [dictSet] at h; simp [h]
  | cons q rest ih =>
      obtain ⟨k', d'⟩ := q
      by_cases hk : k' = k
      · simp [dictSet, hk] at h
        rcases h with h | h
        · exact Or.inl h
        · exact Or.inr (List.mem_cons_of_mem _ h)
      · simp [dictSet, hk] at h
        rcases h with h | h
        · exact Or.inr (by simp [h])
        · rcases ih h with h' | h'
          · exact Or.inl h'
          · exact Or.inr (List.mem_cons_of_mem _ h')

theorem dictSet_map_fst (db : RecordStore) (k : Int) (d : Dog) :
    (dictSet db k d).map Prod.fst =
      if k ∈ db.map Prod.fst then db.map Prod.fst
      else db.map Prod.fst ++ [k] := by
  induction db with
  | nil => simp [dictSet]
  | cons p rest ih =>
      obtain ⟨k', d'⟩ := p
      by_cases hk : k' = k
      · subst hk; simp [dictSet]
      · simp [dictSet, hk, ih, Ne.symm hk]
        by_cases hmem : k ∈ rest.map Prod.fst <;> simp [hmem, Ne.symm hk]

theorem dictSet_nodup {db : RecordStore} {k : Int} {d : Dog}
    (hnd : (db.map Prod.fst).Nodup) : ((dictSet db k d).map Prod.fst).Nodup := by
  rw [dictSet_map_fst]
  by_cases hmem : k ∈ db.map Prod.fst
  · simpa [hmem] using hnd
  · rw [if_neg hmem]
    refine List.Nodup.append hnd (List.nodup_singleton _) ?_
    intro x hx hxk
    rw [List.mem_singleton] at hxk
    exact hmem (hxk ▸ hx)

theorem mem_dictErase {db : RecordStore} {k : Int} {p : Int × Dog}
    (h : p ∈ dictErase db k) : p ∈ db := by
  induction db with
  | nil => simp [dictErase] at h
  | cons q rest ih =>
      obtain ⟨k', d'⟩ := q
      by_cases hk : k' = k
      · simp [dictErase, hk] at h
        exact List.mem_cons_of_mem _ h
      · simp [dictErase, hk] at h
        rcases h with h | h
        · simp [h]
        · exact List.mem_cons_of_mem _ (ih h)

theorem dictErase_map_fst (db : RecordStore) (k : Int) :
    (dictErase db k).map Prod.fst = (db.map Prod.fst).erase k := by
  induction db with
  | nil => simp [dictErase]
  | cons p rest ih =>
      obtain ⟨k', d'⟩ := p
      by_cases hk : k' = k
      · subst hk; simp [dictErase, List.erase_cons_head]
      · simp [dictErase, hk, ih, List.erase_cons_tail, hk]

theorem dictGet_dictErase_self {db : RecordStore} {k : Int}
    (hnd : (db.map Prod.fst).Nodup) : dictGet (dictErase db k) k = none := by
  induction db with
  | nil => simp [dictErase, dictGet]
  | cons p rest ih =>
      obtain ⟨k', d'⟩ := p
      simp only [List.map_cons, List.nodup_cons] at hnd
      by_cases hk : k' = k
      · subst hk
        simp only [dictErase, if_pos rfl]
        exact dictGet_eq_none.mpr hnd.1
      · simp [dictErase, dictGet, hk]
        exact ih hnd.2

theorem foldl_max_init_le (l : List Int) (a : Int) : a ≤ l.foldl max a := by
  induction l generalizing a with
  | nil => exact le_refl a
  | cons x xs ih => exact le_trans (le_max_left a x) (ih (max a x))

theorem foldl_max_le_of_mem {l : List Int} {x : Int} (h : x ∈ l) (a : Int) :
    x ≤ l.foldl max a := by
  induction l generalizing a with
  | nil => simp at h
  | cons y ys ih =>
      rcases List.mem_cons.mp h with h | h
      · subst h
        exact le_trans (le_max_right a x) (foldl_max_init_le ys (max a x))
      · exact ih h (max a y)

theorem foldl_max_mem (l : List Int) (a : Int) :
    l.foldl max a = a ∨ l.foldl max a ∈ l := by
  induction l generalizing a with
  | nil => exact Or.inl rfl
  | cons y ys ih =>
      have hstep : (y :: ys).foldl max a = ys.foldl max (max a y) := rfl
      rcases ih (max a y) with h | h
      · rcases max_choice a y with hm | hm
        · exact Or.inl (by rw [hstep, h]; exact hm)
        · refine Or.inr ?_
          rw [hstep, h, hm]
          exact List.mem_cons_self y ys
      · exact Or.inr (by rw [hstep]; exact List.mem_cons_of_mem _ h)

theorem listMax_mem {l : List Int} {m : Int} (h : listMax l = some m) : m ∈ l := by
  cases l with
  | nil => simp [listMax] at h
  | cons x xs =>
      simp only [listMax, Option.some.injEq] at h
      subst h
      rcases foldl_max_mem xs x with h' | h'
      · rw [h']; exact List.mem_cons_self x xs
      · exact List.mem_cons_of_mem _ h'

theorem le_listMax {l : List Int} {m x : Int} (h : listMax l = some m)
    (hx : x ∈ l) : x ≤ m := by
  cases l with
  | nil => simp at hx
  | cons y ys =>
      simp only [listMax, Option.some.injEq] at h
      subst h
      rcases List.mem_cons.mp hx with hx | hx
      · exact hx ▸ foldl_max_init_le ys y
      · exact foldl_max_le_of_mem hx y

theorem listMax_eq_some {l : List Int} {m : Int} (hmem : m ∈ l)
    (hub : ∀ x ∈ l, x ≤ m) : listMax l = some m := by
  cases l with
  | nil => simp at hmem
  | cons y ys =>
      have hle : ys.foldl max y ≤ m := by
        rcases foldl_max_mem ys y with h | h
        · rw [h]; exact hub y (List.mem_cons_self y ys)
        · exact hub _ (List.mem_cons_of_mem _ h)
      have hge : m ≤ ys.foldl max y := by
        rcases List.mem_cons.mp hmem with h | h
        · rw [h]; exact foldl_max_init_le ys y
        · exact foldl_max_le_of_mem h y
      show some (ys.foldl max y) = some m
      exact congrArg some (le_antisymm hle hge)

theorem foldl_optMax_some {rest : RecordStore}
    (hp : ∀ p ∈ rest, p.2.pk = some p.1) (a : Int) :
    rest.foldl (fun acc p => optMax acc p.2.pk) (some a) =
      some (rest.foldl (fun acc p => max acc p.1) a) := by
  induction rest generalizing a with
  | nil => rfl
  | cons q rs ih =>
      have hq : q.2.pk = some q.1 := hp q (List.mem_cons_self q rs)
      simp only [List.foldl_cons, hq, optMax]
      exact ih (fun p hm => hp p (List.mem_cons_of_mem _ hm)) (max a q.1)

/-- Under the pk-equals-key invariant, the Python `max` over stored `pk`
fields computes the maximum of the keys. -/
theorem maxPks_of_wf {db : RecordStore} (hp : ∀ p ∈ db, p.2.pk = some p.1) :
    maxPks db = listMax (db.map Prod.fst) := by
  cases db with
  | nil => rfl
  | cons q rest =>
      obtain ⟨k, d⟩ := q
      have hd : d.pk = some k := hp (k, d) (List.mem_cons_self _ _)
      simp only [maxPks, hd, listMax, List.map_cons,
        foldl_optMax_some (fun p hm => hp p (List.mem_cons_of_mem _ hm)) k,
        List.foldl_map]

theorem lookupNonNull_cons (k : String) (w : Option PatchValue) (rest : Patch)
    (key : String) :
    lookupNonNull ((k, w) :: rest) key =
      if k = key then (match w with | some v => some v | none => none)
      else lookupNonNull rest key := by
  by_cases h : k = key
  · subst h; cases w <;> simp [lookupNonNull, lookupKey]
  · simp [lookupNonNull, lookupKey, h]

theorem lookupNonNull_eq_none {patch : Patch} {key : String}
    (h : key ∉ patch.map Prod.fst) : lookupNonNull patch key = none := by
  induction patch with
  | nil => rfl
  | cons e rest ih =>
      obtain ⟨k, w⟩ := e
      simp only [List.map_cons, List.mem_cons] at h
      push_neg at h
      rw [lookupNonNull_cons, if_neg (fun hk => h.1 hk.symm)]
      exact ih h.2

theorem dogHasAttr_of_field {k : String} (h : k ∈ dogFields) :
    dogHasAttr k = true := by
  simp [dogHasAttr]
  exact Or.inl h

theorem setDogField_not_field {d : Dog} {k : String} {v : PatchValue}
    (h : k ∉ dogFields) : setDogField d k v = none := by
  unfold setDogField
  split <;> simp_all [dogFields]

theorem setDogField_field_some (d : Dog) {k : String} (v : PatchValue)
    (h : k ∈ dogFields) : ∃ d2, setDogField d k v = some d2 := by
  simp only [dogFields, List.mem_cons, List.not_mem_nil, or_false] at h
  rcases h with h | h | h | h | h | h <;> subst h <;> cases v <;> exact ⟨_, rfl⟩

theorem patchStep_none (d : Dog) (k : String) :
    patchStep d (k, none) = some d := rfl

theorem applyPatch_cons_some {cur d : Dog} {e : String × Option PatchValue}
    (h : patchStep cur e = some d) (rest : Patch) :
    applyPatch cur (e :: rest) = applyPatch d rest := by
  simp [applyPatch, h]

theorem setDogField_pk {d d2 : Dog} {k : String} {v : PatchValue}
    (h : k ≠ "pk") (hs : setDogField d k v = some d2) : d2.pk = d.pk := by
  unfold setDogField at hs
  split at hs
  · simp_all
  · injection hs with hs
    rw [← hs]
  · injection hs with hs
    rw [← hs]
  · injection hs with hs
    rw [← hs]
  · injection hs with hs
    rw [← hs]
  · injection hs with hs
    rw [← hs]
  · split at hs <;> simp_all

theorem patchStep_pk {d d2 : Dog} {e : String × Option PatchValue}
    (h : e.1 ≠ "pk") (hs : patchStep d e = some d2) : d2.pk = d.pk := by
  obtain ⟨k, w⟩ := e
  cases w with
  | none =>
      simp [patchStep] at hs
      rw [← hs]
  | some v =>
      simp only [patchStep] at hs
      split at hs
      · exact setDogField_pk h hs
      · simp at hs
        rw [← hs]

/-- A patch that never names `pk` leaves the `pk` field alone, whether the
loop finishes or raises part-way. -/
theorem applyPatch_pk_of_not_mem {patch : Patch}
    (h : "pk" ∉ patch.map Prod.fst) (cur : Dog) :
    (∀ u, applyPatch cur patch = .ok u → u.pk = cur.pk) ∧
    (∀ key d, applyPatch cur patch = .error (key, d) → d.pk = cur.pk) := by
  induction patch generalizing cur with
  | nil =>
      constructor
      · intro u hu
        simp [applyPatch] at hu
        rw [← hu]
      · intro key d hd
        simp [applyPatch] at hd
  | cons e rest ih =>
      simp only [List.map_cons, List.mem_cons] at h
      push_neg at h
      have he : e.1 ≠ "pk" := fun hk => h.1 hk.symm
      rcases hstep : patchStep cur e with _ | d1
      · constructor
        · intro u hu
          simp [applyPatch, hstep] at hu
        · intro key d hd
          simp [applyPatch, hstep] at hd
          rw [← hd.2]
      · have hd1 : d1.pk = cur.pk := patchStep_pk he hstep
        rw [applyPatch_cons_some hstep]
        constructor
        · intro u hu
          rw [(ih h.2 d1).1 u hu, hd1]
        · intro key d hd
          rw [(ih h.2 d1).2 key d hd, hd1]

/-- Applying a patch whose keys are all declared fields (nodup, well-typed)
finishes without raising and overwrites exactly the fields given non-null
values, leaving every other field unchanged. -/
theorem applyPatch_eq (patch : Patch)
    (hrec : ∀ k ∈ patch.map Prod.fst, k ∈ dogFields)
    (hnd : (patch.map Prod.fst).Nodup)
    (hwt : patchWellTyped patch = true) (cur : Dog) :
    applyPatch cur patch =
      .ok { pk := match lookupNonNull patch "pk" with | some (.vInt i) => some i | _ => cur.pk,
            name := match lookupNonNull patch "name" with | some (.vStr s) => s | _ => cur.name,
            kind := match lookupNonNull patch "kind" with | some (.vKind c) => c | _ => cur.kind,
            age := match lookupNonNull patch "age" with | some (.vInt i) => some i | _ => cur.age,
            owner := match lookupNonNull patch "owner" with | some (.vStr s) => some s | _ => cur.owner,
            vaccinated := match lookupNonNull patch "vaccinated" with | some (.vBool b) => b | _ => cur.vaccinated } := by
  induction patch generalizing cur with
  | nil => rfl
  | cons e rest ih =>
      obtain ⟨k, w⟩ := e
      simp only [List.map_cons, List.nodup_cons] at hnd
      simp only [patchWellTyped, List.all_cons, Bool.and_eq_true] at hwt
      have hrec2 : ∀ k2 ∈ rest.map Prod.fst, k2 ∈ dogFields :=
        fun k2 hk2 => hrec k2 (by simp [hk2])
      have hk0 : k ∈ dogFields := hrec k (by simp)
      have hih := ih hrec2 hnd.2 hwt.2
      by_cases h1 : k = "pk"
      · subst h1
        have h0 : lookupNonNull rest "pk" = none := lookupNonNull_eq_none hnd.1
        rcases w with _ | v
        · rw [applyPatch_cons_some (patchStep_none cur _), hih]
          simp [lookupNonNull_cons, h0]
        · cases v with
          | vInt i =>
              have hstep : patchStep cur ("pk", some (PatchValue.vInt i)) =
                  some { cur with pk := some i } := rfl
              rw [applyPatch_cons_some hstep, hih]
              simp [lookupNonNull_cons, h0]
          | vStr s => simp [entryOk, valTypeOk] at hwt
          | vKind c => simp [entryOk, valTypeOk] at hwt
          | vBool b => simp [entryOk, valTypeOk] at hwt
      · by_cases h2 : k = "name"
        · subst h2
          have h0 : lookupNonNull rest "name" = none := lookupNonNull_eq_none hnd.1
          rcases w with _ | v
          · rw [applyPatch_cons_some (patchStep_none cur _), hih]
            simp [lookupNonNull_cons, h0]
          · cases v with
            | vStr s =>
                have hstep : patchStep cur ("name", some (PatchValue.vStr s)) =
                    some { cur with name := s } := rfl
                rw [applyPatch_cons_some hstep, hih]
                simp [lookupNonNull_cons, h0]
            | vInt i => simp [entryOk, valTypeOk] at hwt
            | vKind c => simp [entryOk, valTypeOk] at hwt
            | vBool b => simp [entryOk, valTypeOk] at hwt
        · by_cases h3 : k = "kind"
          · subst h3
            have h0 : lookupNonNull rest "kind" = none := lookupNonNull_eq_none hnd.1
            rcases w with _ | v
            · rw [applyPatch_cons_some (patchStep_none cur _), hih]
              simp [lookupNonNull_cons, h0]
            · cases v with
              | vKind c =>
                  have hstep : patchStep cur ("kind", some (PatchValue.vKind c)) =
                      some { cur with kind := c } := rfl
                  rw [applyPatch_cons_some hstep, hih]
                  simp [lookupNonNull_cons, h0]
              | vInt i => simp [entryOk, valTypeOk] at hwt
              | vStr s => simp [entryOk, valTypeOk] at hwt
              | vBool b => simp [entryOk, valTypeOk] at hwt
          · by_cases h4 : k = "age"
            · subst h4
              have h0 : lookupNonNull rest "age" = none := lookupNonNull_eq_none hnd.1
              rcases w with _ | v
              · rw [applyPatch_cons_some (patchStep_none cur _), hih]
                simp [lookupNonNull_cons, h0]
              · cases v with
                | vInt i =>
                    have hstep : patchStep cur ("age", some (PatchValue.vInt i)) =
                        some { cur with age := some i } := rfl
                    rw [applyPatch_cons_some hstep, hih]
                    simp [lookupNonNull_cons, h0]
                | vStr s => simp [entryOk, valTypeOk] at hwt
                | vKind c => simp [entryOk, valTypeOk] at hwt
                | vBool b => simp [entryOk, valTypeOk] at hwt
            · by_cases h5 : k = "owner"
              · subst h5
                have h0 : lookupNonNull rest "owner" = none := lookupNonNull_eq_none hnd.1
                rcases w with _ | v
                · rw [applyPatch_cons_some (patchStep_none cur _), hih]
                  simp [lookupNonNull_cons, h0]
                · cases v with
                  | vStr s =>
                      have hstep : patchStep cur ("owner", some (PatchValue.vStr s)) =
                          some { cur with owner := some s } := rfl
                      rw [applyPatch_cons_some hstep, hih]
                      simp [lookupNonNull_cons, h0]
                  | vInt i => simp [entryOk, valTypeOk] at hwt
                  | vKind c => simp [entryOk, valTypeOk] at hwt
                  | vBool b => simp [entryOk, valTypeOk] at hwt
              · by_cases h6 : k = "vaccinated"
                · subst h6
                  have h0 : lookupNonNull rest "vaccinated" = none :=
                    lookupNonNull_eq_none hnd.1
                  rcases w with _ | v
                  · rw [applyPatch_cons_some (patchStep_none cur _), hih]
                    simp [lookupNonNull_cons, h0]
                  · cases v with
                    | vBool b =>
                        have hstep : patchStep cur ("vaccinated", some (PatchValue.vBool b)) =
                            some { cur with vaccinated := b } := rfl
                        rw [applyPatch_cons_some hstep, hih]
                        simp [lookupNonNull_cons, h0]
                    | vInt i => simp [entryOk, valTypeOk] at hwt
                    | vStr s => simp [entryOk, valTypeOk] at hwt
                    | vKind c => simp [entryOk, valTypeOk] at hwt
                · exfalso
                  simp [dogFields, h1, h2, h3, h4, h5, h6] at hk0

theorem create_dog_empty (dog : Dog) (hpk : dog.pk = none ∨ dog.pk = some 0) :
    create_dog [] dog = some ([(1, normalizeDog dog 1)], normalizeDog dog 1) := by
  simp [create_dog, hpk, normalizeDog, dictSet]

theorem create_dog_max {db : RecordStore} {dog : Dog} {m : Int}
    (hpk : dog.pk = none ∨ dog.pk = some 0) (hne : db ≠ [])
    (hm : maxPks db = some m) :
    create_dog db dog =
      some (dictSet db (m + 1) (normalizeDog dog (m + 1)), normalizeDog dog (m + 1)) := by
  have hemp : db.isEmpty = false := by
    cases db with
    | nil => exact absurd rfl hne
    | cons p rest => rfl
  simp [create_dog, hpk, hemp, hm, normalizeDog]

theorem create_dog_given {db : RecordStore} {dog : Dog} {p : Int}
    (hp : dog.pk = some p) (hp0 : p ≠ 0) :
    create_dog db dog =
      some (dictSet db p (normalizeDog dog p), normalizeDog dog p) := by
  have hcond : ¬(dog.pk = none ∨ dog.pk = some 0) := by
    rw [hp]
    push_neg
    exact ⟨by simp, by simp [hp0]⟩
  simp [create_dog, hcond, hp, hp0, normalizeDog]

theorem create_dog_shape {db : RecordStore} {dog : Dog} {db' : RecordStore}
    {stored : Dog} (h : create_dog db dog = some (db', stored)) :
    ∃ k, stored = normalizeDog dog k ∧ db' = dictSet db k stored := by
  simp only [create_dog] at h
  split at h
  · exact absurd h (by simp)
  · rename_i pk heq
    refine ⟨pk, ?_, ?_⟩
    · simp only [Option.some.injEq, Prod.mk.injEq] at h
      exact h.2.symm ▸ rfl
    · simp only [Option.some.injEq, Prod.mk.injEq] at h
      rw [← h.1, ← h.2]

theorem update_filter_nil {patch : Patch}
    (hall : (patch.map Prod.fst).all dogHasAttr = true) :
    ((patch.map Prod.fst).filter (fun key => !(dogHasAttr key))) = [] := by
  rw [List.filter_eq_nil_iff]
  intro a ha
  simp only [List.all_eq_true] at hall
  simp [hall a ha]

theorem update_dog_ok {db : RecordStore} {pk : Int} {patch : Patch} {cur u : Dog}
    (hget : dictGet db pk = some cur)
    (hall : (patch.map Prod.fst).all dogHasAttr = true)
    (happ : applyPatch cur patch = .ok u) :
    update_dog db pk patch = .ok (dictSet db pk u, u) := by
  simp [update_dog, hget, update_filter_nil hall, happ]

theorem update_dog_fieldError {db : RecordStore} {pk : Int} {patch : Patch}
    {cur d : Dog} {key : String}
    (hget : dictGet db pk = some cur)
    (hall : (patch.map Prod.fst).all dogHasAttr = true)
    (happ : applyPatch cur patch = .error (key, d)) :
    update_dog db pk patch = .error (.fieldError key (dictSet db pk d)) := by
  simp [update_dog, hget, update_filter_nil hall, happ]

theorem update_dog_invalid {db : RecordStore} {pk : Int} {patch : Patch} {cur : Dog}
    (hget : dictGet db pk = some cur)
    (hbad : (patch.map Prod.fst).all dogHasAttr = false) :
    update_dog db pk patch =
      .error (.invalidField
        ((patch.map Prod.fst).filter (fun key => !(dogHasAttr key)))) := by
  have hfil : ((patch.map Prod.fst).filter (fun key => !(dogHasAttr key))).isEmpty = false := by
    simp only [List.all_eq_false] at hbad
    obtain ⟨a, ha, hna⟩ := hbad
    rcases hfe : (patch.map Prod.fst).filter (fun key => !(dogHasAttr key)) with _ | _
    · have h2 := List.filter_eq_nil_iff.mp hfe a ha
      simp at h2
      exact absurd h2 hna
    · rfl
  simp [update_dog, hget, hfil]

theorem update_dog_absent {db : RecordStore} {pk : Int} {patch : Patch}
    (hget : dictGet db pk = none) :
    update_dog db pk patch = .error .notFound := by
  simp [update_dog, hget]

theorem delete_dog_present {db : RecordStore} {pk : Int} {cur : Dog}
    (hget : dictGet db pk = some cur) :
    delete_dog db pk = .ok (dictErase db pk, cur) := by
  simp [delete_dog, hget]

theorem delete_dog_absent {db : RecordStore} {pk : Int}
    (hget : dictGet db pk = none) : delete_dog db pk = .error .notFound := by
  simp [delete_dog, hget]

theorem WF_dictSet {db : RecordStore} {k : Int} {d : Dog} (hwf : WF db)
    (hd : d.pk = some k) : WF (dictSet db k d) := by
  refine ⟨fun p hp => ?_, dictSet_nodup hwf.2⟩
  rcases mem_dictSet hp with h | h
  · rw [h]; exact hd
  · exact hwf.1 p h

theorem WF_dictErase {db : RecordStore} {k : Int} (hwf : WF db) :
    WF (dictErase db k) := by
  refine ⟨fun p hp => hwf.1 p (mem_dictErase hp), ?_⟩
  rw [dictErase_map_fst]
  exact hwf.2.erase k

theorem WF_runOp {db : RecordStore} {op : Op} (hwf : WF db)
    (hsafe : opSafe op) : WF (runOp db op) := by
  cases op with
  | create dog =>
      simp only [runOp]
      rcases hres : create_dog db dog with _ | p
      · exact hwf
      · obtain ⟨db', stored⟩ := p
        obtain ⟨k, hstored, hdb'⟩ := create_dog_shape hres
        rw [hdb']
        exact WF_dictSet hwf (by rw [hstored]; rfl)
  | update pk patch =>
      simp only [runOp]
      rcases hres : update_dog db pk patch with e | p
      · rcases e with _ | ks | ⟨key, db2⟩
        · exact hwf
        · exact hwf
        · show WF db2
          simp only [update_dog] at hres
          rcases hget : dictGet db pk with _ | cur
          · rw [hget] at hres; exact absurd hres (by simp)
          · rw [hget] at hres
            rcases hinv : ((patch.map Prod.fst).filter (fun key => !(dogHasAttr key))).isEmpty with _ | _
            · rw [hinv] at hres; exact absurd hres (by simp)
            · rw [hinv] at hres
              simp only [if_true, ite_true] at hres
              rcases happ : applyPatch cur patch with ⟨k2, d2⟩ | u
              · rw [happ] at hres
                simp only [Except.error.injEq, StoreError.fieldError.injEq] at hres
                rw [← hres.2]
                refine WF_dictSet hwf ?_
                rw [(applyPatch_pk_of_not_mem hsafe cur).2 k2 d2 happ]
                exact hwf.1 (pk, cur) (dictGet_mem hget)
              · rw [happ] at hres; exact absurd hres (by simp)
      · obtain ⟨db', updated⟩ := p
        show WF db'
        simp only [update_dog] at hres
        rcases hget : dictGet db pk with _ | cur
        · rw [hget] at hres; exact absurd hres (by simp)
        · rw [hget] at hres
          rcases hinv : ((patch.map Prod.fst).filter (fun key => !(dogHasAttr key))).isEmpty with _ | _
          · rw [hinv] at hres; exact absurd hres (by simp)
          · rw [hinv] at hres
            simp only [if_true, ite_true] at hres
            rcases happ : applyPatch cur patch with ⟨k2, d2⟩ | u
            · rw [happ] at hres; exact absurd hres (by simp)
            · rw [happ] at hres
              simp only [Except.ok.injEq, Prod.mk.injEq] at hres
              rw [← hres.1]
              refine WF_dictSet hwf ?_
              rw [(applyPatch_pk_of_not_mem hsafe cur).1 u happ]
              exact hwf.1 (pk, cur) (dictGet_mem hget)
  | delete pk =>
      simp only [runOp]
      rcases hres : delete_dog db pk with e | p
      · exact hwf
      · obtain ⟨db', deleted⟩ := p
        simp only [delete_dog] at hres
        rcases hget : dictGet db pk with _ | cur
        · rw [hget] at hres; exact absurd hres (by simp)
        · rw [hget] at hres
          simp only [Except.ok.injEq, Prod.mk.injEq] at hres
          rw [← hres.1]
          exact WF_dictErase hwf

theorem WF_runOps {db : RecordStore} {ops : List Op} (hwf : WF db)
    (hsafe : ∀ op ∈ ops, opSafe op) : WF (runOps db ops) := by
  induction ops generalizing db with
  | nil => exact hwf
  | cons op rest ih =>
      exact ih (WF_runOp hwf (hsafe op (List.mem_cons_self op rest)))
        (fun o ho => hsafe o (List.mem_cons_of_mem _ ho))

theorem foldl_optMax_isSome {rest : RecordStore}
    (hp : ∀ p ∈ rest, p.2.pk ≠ none) (a : Int) :
    ∃ m, rest.foldl (fun acc p => optMax acc p.2.pk) (some a) = some m := by
  induction rest generalizing a with
  | nil => exact ⟨a, rfl⟩
  | cons q rs ih =>
      rcases hq' : q.2.pk with _ | b
      · exact absurd hq' (hp q (List.mem_cons_self q rs))
      · simp only [List.foldl_cons, hq', optMax]
        exact ih (fun p hm => hp p (List.mem_cons_of_mem _ hm)) (max a b)

theorem maxPks_isSome {db : RecordStore} (hne : db ≠ [])
    (hp : ∀ p ∈ db, p.2.pk ≠ none) : ∃ m, maxPks db = some m := by
  cases db with
  | nil => exact absurd rfl hne
  | cons q rest =>
      obtain ⟨k, d⟩ := q
      rcases hq : d.pk with _ | b
      · exact absurd hq (hp (k, d) (List.mem_cons_self _ _) ·)
      · simp only [maxPks, hq]
        exact foldl_optMax_isSome (fun p hm => hp p (List.mem_cons_of_mem _ hm)) b

/-- Claim C7: deleting a present id removes the record and returns exactly the
record that existed prior to removal, after which `get_by_id` on that id fails
with NotFound; deleting an absent id fails with NotFound (404) and leaves the
store unchanged. -/
theorem claim_C7 (db : RecordStore) (pk : Int)
    (hnd : (db.map Prod.fst).Nodup) :
    (∀ d, dictGet db pk = some d →
        delete_dog db pk = .ok (dictErase db pk, d) ∧
        get_dog_by_pk (dictErase db pk) pk = .error .notFound) ∧
    (dictGet db pk = none →
        delete_dog db pk = .error .notFound ∧
        StoreError.notFound.status = 404 ∧
        runOp db (.delete pk) = db) := by
  constructor
  · intro d hget
    refine ⟨delete_dog_present hget, ?_⟩
    simp [get_dog_by_pk, dictGet_dictErase_self hnd]
  · intro hget
    refine ⟨delete_dog_absent hget, rfl, ?_⟩
    simp [runOp, delete_dog_absent hget]

theorem claim_C7_witness :
    delete_dog [((1 : Int), dogA1)] 1 = .ok ([], dogA1) ∧
      get_dog_by_pk ([] : RecordStore) 1 = .error .notFound := by
  have h := (claim_C7 [((1 : Int), dogA1)] 1 (by decide)).1 dogA1 rfl
  exact ⟨h.1, h.2⟩

/-- Claim C8: `get_by_id` at the id assigned by an immediately preceding
`create` returns the stored record, which agrees with the input record on
every field except the identifier. -/
theorem claim_C8 (db : RecordStore) (dog stored : Dog) (db' : RecordStore)
    (a : Int) (h : create_dog db dog = some (db', stored))
    (ha : stored.pk = some a) :
    get_dog_by_pk db' a = .ok stored ∧
    stored.name = dog.name ∧ stored.kind = dog.kind ∧ stored.age = dog.age ∧
    stored.owner = dog.owner ∧ stored.vaccinated = dog.vaccinated := by
  obtain ⟨k, hs, hdb'⟩ := create_dog_shape h
  have hak : a = k := by
    rw [hs] at ha
    simpa [normalizeDog] using ha.symm
  subst hak
  refine ⟨?_, by rw [hs]; rfl, by rw [hs]; rfl, by rw [hs]; rfl,
    by rw [hs]; rfl, by rw [hs]; rfl⟩
  rw [hdb']
  simp [get_dog_by_pk, dictGet_dictSet_self]

theorem claim_C8_witness :
    get_dog_by_pk [((1 : Int), dogA1)] 1 = .ok dogA1 ∧
    dogA1.name = dogA.name ∧ dogA1.kind = dogA.kind ∧ dogA1.age = dogA.age ∧
    dogA1.owner = dogA.owner ∧ dogA1.vaccinated = dogA.vaccinated :=
  claim_C8 [] dogA dogA1 [((1 : Int), dogA1)] 1 (by decide) (by decide)

/-- Claim C4: `filter_by_name` returns exactly the records whose name matches
the query case-insensitively, fails with NotFound (404) iff that set is empty,
and queries equal up to case produce identical results. -/
theorem claim_C4 (db : RecordStore) (name : String) :
    (∀ res, search_dog_by_name db name = .ok res →
        res = (storeValues db).filter
            (fun dog => strLower dog.name == strLower name) ∧
        res ≠ [] ∧
        ∀ d, d ∈ res ↔ d ∈ storeValues db ∧ strLower d.name = strLower name) ∧
    (search_dog_by_name db name = .error .notFound ↔
        ∀ d ∈ storeValues db, strLower d.name ≠ strLower name) ∧
    StoreError.notFound.status = 404 ∧
    (∀ other : String, strLower name = strLower other →
        search_dog_by_name db name = search_dog_by_name db other) := by
  refine ⟨?_, ?_, rfl, ?_⟩
  · intro res hok
    by_cases hemp :
        ((storeValues db).filter
          (fun dog => strLower dog.name == strLower name)).isEmpty
    · simp [search_dog_by_name, hemp] at hok
    · simp only [search_dog_by_name, hemp, Bool.false_eq_true, if_false,
        Except.ok.injEq] at hok
      subst hok
      refine ⟨rfl, by simpa [List.isEmpty_iff] using hemp, ?_⟩
      intro d
      simp [List.mem_filter]
  · constructor
    · intro herr d hd hlow
      by_cases hemp :
          ((storeValues db).filter
            (fun dog => strLower dog.name == strLower name)).isEmpty
      · rw [List.isEmpty_iff, List.filter_eq_nil_iff] at hemp
        exact hemp d hd (by simp [hlow])
      · simp [search_dog_by_name, hemp] at herr
    · intro hall
      have hemp :
          ((storeValues db).filter
            (fun dog => strLower dog.name == strLower name)) = [] := by
        rw [List.filter_eq_nil_iff]
        intro d hd
        simp [hall d hd]
      simp [search_dog_by_name, hemp]
  · intro other hlow
    simp [search_dog_by_name, hlow]

theorem claim_C4_witness :
    strLower "Rex" = strLower "rex" ∧
      search_dog_by_name [((1 : Int), dogRex)] "Rex" =
        search_dog_by_name [((1 : Int), dogRex)] "rex" :=
  ⟨by decide, (claim_C4 [((1 : Int), dogRex)] "Rex").2.2.2 "rex" (by decide)⟩

/-- Claim C9: `filter_by_kind` returns exactly the records whose kind equals
the given value (never an error); after creating one terrier and one bulldog,
filtering by terrier returns exactly the terrier. -/
theorem claim_C9 (db : RecordStore) (kind : DogType) :
    (∀ d, d ∈ get_dogs db kind ↔ d ∈ storeValues db ∧ d.kind = kind) ∧
    get_dogs (runOps emptyStore [Op.create dogA, Op.create dogB])
        DogType.terrier = [dogA1] ∧
    get_dogs (runOps emptyStore [Op.create dogA, Op.create dogB])
        DogType.dalmatian = [] := by
  refine ⟨?_, by decide, by decide⟩
  intro d
  simp [get_dogs, List.mem_filter]

theorem claim_C9_witness :
    dogA1 ∈ get_dogs [((1 : Int), dogA1), (2, dogB2)] DogType.terrier :=
  ((claim_C9 [((1 : Int), dogA1), (2, dogB2)] DogType.terrier).1 dogA1).mpr
    (by decide)

/-- Claim C10: a create whose record carries identifier 0 behaves exactly as
an id-omitted create: Python's `if not pk` treats 0 as absent, so a fresh id
(max of stored ids + 1, or 1 on an empty store) is assigned and the supplied 0
is discarded. -/
theorem claim_C10 (db : RecordStore) (dog : Dog) (h : dog.pk = some 0) :
    create_dog db dog = create_dog db { dog with pk := none } ∧
    (db = [] →
        create_dog db dog =
          some (dictSet db 1 (normalizeDog dog 1), normalizeDog dog 1)) ∧
    (∀ m, maxPks db = some m →
        create_dog db dog =
          some (dictSet db (m + 1) (normalizeDog dog (m + 1)),
            normalizeDog dog (m + 1))) := by
  refine ⟨?_, ?_, ?_⟩
  · simp [create_dog, h]
  · intro hdb
    subst hdb
    exact create_dog_empty dog (Or.inr h)
  · intro m hm
    rcases hdb : db with _ | ⟨p, rest⟩
    · rw [hdb] at hm
      simp [maxPks] at hm
    · rw [← hdb]
      refine create_dog_max (Or.inr h) ?_ hm
      rw [hdb]
      exact List.cons_ne_nil p rest

theorem claim_C10_witness :
    dogZ.pk = some 0 ∧
      create_dog [] dogZ =
        some ([((1 : Int),
          { pk := some 1, name := "Z", kind := .terrier, age := none,
            owner := none, vaccinated := false })],
          { pk := some 1, name := "Z", kind := .terrier, age := none,
            owner := none, vaccinated := false }) := by
  refine ⟨rfl, ?_⟩
  have h := (claim_C10 [] dogZ rfl).2.1 rfl
  exact h.trans (by decide)

/-- When every patch key is a declared field, the update loop finishes. -/
theorem applyPatch_ok_of_fields {patch : Patch}
    (hrec : ∀ k ∈ patch.map Prod.fst, k ∈ dogFields) (cur : Dog) :
    ∃ u, applyPatch cur patch = .ok u := by
  induction patch generalizing cur with
  | nil => exact ⟨cur, rfl⟩
  | cons e rest ih =>
      obtain ⟨k, w⟩ := e
      have hk : k ∈ dogFields := hrec k (by simp)
      have hrec2 : ∀ k2 ∈ rest.map Prod.fst, k2 ∈ dogFields :=
        fun k2 hk2 => hrec k2 (by simp [hk2])
      cases w with
      | none =>
          obtain ⟨u, hu⟩ := ih hrec2 cur
          exact ⟨u, by rw [applyPatch_cons_some (patchStep_none cur k)]; exact hu⟩
      | some v =>
          obtain ⟨d2, hd2⟩ := setDogField_field_some cur v hk
          have hstep : patchStep cur (k, some v) = some d2 := by
            simp [patchStep, dogHasAttr_of_field hk, hd2]
          obtain ⟨u, hu⟩ := ih hrec2 d2
          exact ⟨u, by rw [applyPatch_cons_some hstep]; exact hu⟩

/-- When every patch key passes `hasattr` but some non-null entry's key is a
method name rather than a field, the loop raises. -/
theorem applyPatch_error_of {patch : Patch}
    (hattr : ∀ k ∈ patch.map Prod.fst, dogHasAttr k = true)
    (hbad : ∃ e ∈ patch, e.2 ≠ none ∧ e.1 ∉ dogFields) (cur : Dog) :
    ∃ key d, applyPatch cur patch = .error (key, d) := by
  induction patch generalizing cur with
  | nil => simp at hbad
  | cons e rest ih =>
      obtain ⟨k, w⟩ := e
      have hattr2 : ∀ k2 ∈ rest.map Prod.fst, dogHasAttr k2 = true :=
        fun k2 hk2 => hattr k2 (by simp [hk2])
      cases w with
      | none =>
          have hbad2 : ∃ e ∈ rest, e.2 ≠ none ∧ e.1 ∉ dogFields := by
            obtain ⟨e0, he0, hne, hnf⟩ := hbad
            rcases List.mem_cons.mp he0 with h | h
            · rw [h] at hne; simp at hne
            · exact ⟨e0, h, hne, hnf⟩
          obtain ⟨key, d, hd⟩ := ih hattr2 hbad2 cur
          exact ⟨key, d, by rw [applyPatch_cons_some (patchStep_none cur k)]; exact hd⟩
      | some v =>
          by_cases hk : k ∈ dogFields
          · obtain ⟨d2, hd2⟩ := setDogField_field_some cur v hk
            have hstep : patchStep cur (k, some v) = some d2 := by
              simp [patchStep, dogHasAttr_of_field hk, hd2]
            have hbad2 : ∃ e ∈ rest, e.2 ≠ none ∧ e.1 ∉ dogFields := by
              obtain ⟨e0, he0, hne, hnf⟩ := hbad
              rcases List.mem_cons.mp he0 with h | h
              · rw [h] at hnf; simp at hnf; exact absurd hk hnf
              · exact ⟨e0, h, hne, hnf⟩
            obtain ⟨key, d, hd⟩ := ih hattr2 hbad2 d2
            exact ⟨key, d, by rw [applyPatch_cons_some hstep]; exact hd⟩
          · have hka : dogHasAttr k = true := hattr k (by simp)
            have hstep : patchStep cur (k, some v) = none := by
              simp [patchStep, hka, setDogField_not_field hk]
            exact ⟨k, cur, by simp [applyPatch, hstep]⟩

/-- Claim C5: on a record carrying no identifier, create always succeeds (on
any store whose records all carry identifiers, as every store reachable
through the API does), assigns `max(existing ids) + 1` (`1` on an empty
store), stores the field-by-field normalized copy under that identifier, and
returns the stored record. -/
theorem claim_C5 (db : RecordStore) (dog : Dog) (hpk : dog.pk = none)
    (hpks : ∀ p ∈ db, p.2.pk ≠ none) :
    (create_dog db dog).isSome = true ∧
    (db = [] →
        create_dog db dog =
          some (dictSet db 1 (normalizeDog dog 1), normalizeDog dog 1)) ∧
    (∀ m, maxPks db = some m →
        create_dog db dog =
          some (dictSet db (m + 1) (normalizeDog dog (m + 1)),
            normalizeDog dog (m + 1))) := by
  refine ⟨?_, ?_, ?_⟩
  · cases hdb : db with
    | nil => rw [create_dog_empty dog (Or.inl hpk)]; rfl
    | cons p rest =>
        obtain ⟨m, hm⟩ := maxPks_isSome (List.cons_ne_nil p rest) (hdb ▸ hpks)
        rw [create_dog_max (Or.inl hpk) (List.cons_ne_nil p rest) hm]
        rfl
  · intro hdb
    subst hdb
    exact create_dog_empty dog (Or.inl hpk)
  · intro m hm
    cases hdb : db with
    | nil => rw [hdb] at hm; simp [maxPks] at hm
    | cons p rest =>
        rw [hdb] at hm
        exact create_dog_max (Or.inl hpk) (List.cons_ne_nil p rest) hm

theorem claim_C5_witness :
    create_dog [((1 : Int), dogA1)] dogB =
      some ([(1, dogA1), (2, dogB2)], dogB2) := by
  have h := (claim_C5 [((1 : Int), dogA1)] dogB rfl (by decide)).2.2 1 rfl
  exact h.trans (by decide)

/-- Claim C6: on an existing id, a patch whose keys are all recognized fields
(pairwise distinct, values fitting the field types) succeeds and overwrites
exactly the fields given non-null values; null-valued entries and unmentioned
fields are left unchanged. -/
theorem claim_C6 (db : RecordStore) (pk : Int) (patch : Patch) (cur : Dog)
    (hget : dictGet db pk = some cur)
    (hrec : ∀ k ∈ patch.map Prod.fst, k ∈ dogFields)
    (hnd : (patch.map Prod.fst).Nodup)
    (hwt : patchWellTyped patch = true) :
    ∃ u, update_dog db pk patch = .ok (dictSet db pk u, u) ∧
      u = { pk := match lookupNonNull patch "pk" with
              | some (.vInt i) => some i
              | _ => cur.pk,
            name := match lookupNonNull patch "name" with
              | some (.vStr s) => s
              | _ => cur.name,
            kind := match lookupNonNull patch "kind" with
              | some (.vKind c) => c
              | _ => cur.kind,
            age := match lookupNonNull patch "age" with
              | some (.vInt i) => some i
              | _ => cur.age,
            owner := match lookupNonNull patch "owner" with
              | some (.vStr s) => some s
              | _ => cur.owner,
            vaccinated := match lookupNonNull patch "vaccinated" with
              | some (.vBool b) => b
              | _ => cur.vaccinated } :=
  ⟨_, update_dog_ok hget
      (List.all_eq_true.mpr fun k hk => dogHasAttr_of_field (hrec k hk))
      (applyPatch_eq patch hrec hnd hwt cur), rfl⟩

theorem claim_C6_witness :
    update_dog [((1 : Int), dogA1)] 1 [("age", some (.vInt 5))] =
      .ok ([(1, dogA1age5)], dogA1age5) := by
  obtain ⟨u, hup, hu⟩ := claim_C6 [((1 : Int), dogA1)] 1
    [("age", some (.vInt 5))] dogA1 rfl (by decide) (by decide) (by decide)
  have hu' : u = dogA1age5 := hu.trans (by decide)
  rw [hu'] at hup
  exact hup

/-- Claim C1 counterexample: create A (id 1), create B (id 2), delete id 2;
the next id-omitted create is assigned id 2, not 3 as the claim requires
regardless of which record was deleted. -/
theorem claim_C1_counterexample :
    (create_dog (runOps emptyStore
        [Op.create dogA, Op.create dogB, Op.delete 2]) dogC).map
      (fun p => p.2.pk) = some (some 2) ∧
    some (some (2 : Int)) ≠ some (some (3 : Int)) := by
  constructor
  · decide
  · decide

/-- The fresh id is strictly above every stored key. -/
theorem nextPk_not_mem (db : RecordStore) : nextPk db ∉ db.map Prod.fst := by
  intro hmem
  rcases hl : listMax (db.map Prod.fst) with _ | m
  · cases hk : db.map Prod.fst with
    | nil => rw [hk] at hmem; simp at hmem
    | cons y ys => rw [hk] at hl; exact absurd hl (by simp [listMax])
  · have hle := le_listMax hl hmem
    simp only [nextPk, hl] at hle
    omega

theorem nextPk_eq_of_listMax {db : RecordStore} {m : Int}
    (h : listMax (db.map Prod.fst) = some m) : nextPk db = m + 1 := by
  simp [nextPk, h]

/-- Claim C1 (amended): on a well-formed store, an id-omitted create is
assigned `nextPk db` — `1` on the empty store, the maximal stored id plus one
otherwise — so consecutive id-omitted creates receive 1, 2, 3, …, and an
intervening delete preserves the next id as long as it does not remove the
record holding the maximal id (deleting the maximal id lowers the next id,
as the counterexample shows). -/
theorem claim_C1_amended (db : RecordStore) (dog : Dog) (hwf : WF db)
    (hpk : dog.pk = none) :
    create_dog db dog =
        some (dictSet db (nextPk db) (normalizeDog dog (nextPk db)),
          normalizeDog dog (nextPk db)) ∧
    nextPk emptyStore = 1 ∧
    WF (dictSet db (nextPk db) (normalizeDog dog (nextPk db))) ∧
    nextPk (dictSet db (nextPk db) (normalizeDog dog (nextPk db))) =
      nextPk db + 1 ∧
    (∀ k j : Int, k ∈ db.map Prod.fst → j ∈ db.map Prod.fst → k < j →
      nextPk (dictErase db k) = nextPk db) := by
  have hnotin := nextPk_not_mem db
  refine ⟨?_, rfl, ?_, ?_, ?_⟩
  · cases db with
    | nil => exact create_dog_empty dog (Or.inl hpk)
    | cons p rest =>
        have hm : listMax (p.1 :: rest.map Prod.fst) =
            some ((rest.map Prod.fst).foldl max p.1) := rfl
        have hmax : maxPks (p :: rest) =
            some ((rest.map Prod.fst).foldl max p.1) := by
          rw [maxPks_of_wf hwf.1]
          exact hm
        have hnext : nextPk (p :: rest) =
            (rest.map Prod.fst).foldl max p.1 + 1 := nextPk_eq_of_listMax hm
        rw [hnext]
        exact create_dog_max (Or.inl hpk) (List.cons_ne_nil p rest) hmax
  · exact WF_dictSet hwf rfl
  · have hkeys : (dictSet db (nextPk db) (normalizeDog dog (nextPk db))).map
        Prod.fst = db.map Prod.fst ++ [nextPk db] := by
      rw [dictSet_map_fst, if_neg hnotin]
    have hub : ∀ x ∈ db.map Prod.fst ++ [nextPk db], x ≤ nextPk db := by
      intro x hx
      rcases List.mem_append.mp hx with hx | hx
      · rcases hl : listMax (db.map Prod.fst) with _ | m
        · cases hk : db.map Prod.fst with
          | nil => rw [hk] at hx; simp at hx
          | cons y ys => rw [hk] at hl; exact absurd hl (by simp [listMax])
        · have := le_listMax hl hx
          rw [nextPk_eq_of_listMax hl]
          omega
      · rw [List.mem_singleton] at hx
        omega
    have hmem : nextPk db ∈ db.map Prod.fst ++ [nextPk db] :=
      List.mem_append.mpr (Or.inr (List.mem_singleton.mpr rfl))
    have hlm : listMax ((dictSet db (nextPk db)
        (normalizeDog dog (nextPk db))).map Prod.fst) = some (nextPk db) := by
      rw [hkeys]
      exact listMax_eq_some hmem hub
    exact nextPk_eq_of_listMax hlm
  · intro k j hk hj hkj
    rcases hl : listMax (db.map Prod.fst) with _ | m
    · cases hke : db.map Prod.fst with
      | nil => rw [hke] at hk; simp at hk
      | cons y ys => rw [hke] at hl; exact absurd hl (by simp [listMax])
    · have hjm : j ≤ m := le_listMax hl hj
      have hkm : m ≠ k := by omega
      have hmem' : m ∈ (db.map Prod.fst).erase k :=
        (List.mem_erase_of_ne hkm).mpr (listMax_mem hl)
      have hub' : ∀ x ∈ (db.map Prod.fst).erase k, x ≤ m :=
        fun x hx => le_listMax hl (List.mem_of_mem_erase hx)
      have hlm : listMax ((dictErase db k).map Prod.fst) = some m := by
        rw [dictErase_map_fst]
        exact listMax_eq_some hmem' hub'
      rw [nextPk_eq_of_listMax hlm, nextPk_eq_of_listMax hl]

theorem claim_C1_witness :
    WF [((1 : Int), dogA1)] ∧
      create_dog [((1 : Int), dogA1)] dogB =
        some ([(1, dogA1), (2, dogB2)], dogB2) := by
  refine ⟨by decide, ?_⟩
  have h := (claim_C1_amended [((1 : Int), dogA1)] dogB (by decide) rfl).1
  exact h.trans (by decide)

end DogStore
